import Mathlib

/-!
Verification of the PureSpice SPICE-client core against its specification.

The definitions below are a shallow embedding of the current revision of the
source: `channel.c` (the revision with `channel_internal_disconnect` and the
`PSHandlerFn` dispatch, matching `ps.h`), `ps.c`, `channel_main.c`,
`channel_inputs.c`, `channel_record.c` and `agent.c`.  Machine integers are
modelled as `Nat`/`Int` with explicit reductions modulo `2^32` where the C
code performs 32-bit arithmetic.  Socket I/O is abstracted into explicit
inputs (the bytes of a message payload, the set of channels dropped by the
server) and explicit outputs (the packets the client emits, the callback
events it fires).
-/

namespace PureSpice

/-- Modulus of the C `uint32_t` arithmetic used throughout the source. -/
def U32 : Nat := 2 ^ 32

/-! ## Capability bitsets (`messages.h`)

`_SET_CAPABILITY(caps, index)` is `caps[index/32] |= 1 << (index%32)` and
`HAS_CAPABILITY(caps, caps_size, index)` is
`index < caps_size*32 && (caps[index/32] & (1 << (index%32)))`.
A bitset is a list of 32-bit words. -/

/-- Embedding of the `_SET_CAPABILITY` macro from `messages.h`. -/
def SET_CAPABILITY (caps : List Nat) (index : Nat) : List Nat :=
  caps.set (index / 32) (caps.getD (index / 32) 0 ||| (1 <<< (index % 32)))

/-- Embedding of the `HAS_CAPABILITY` macro from `messages.h`; `capsSize` is
the number of 32-bit words of the bitset. -/
def HAS_CAPABILITY (caps : List Nat) (capsSize index : Nat) : Bool :=
  index < capsSize * 32 && (caps.getD (index / 32) 0 &&& (1 <<< (index % 32)) ≠ 0)

/-! ## Input scancode mapping (`channel_inputs.c`) -/

/-- Code transformation performed by `purespice_keyDown`:
`if (code > 0x100) code = 0xe0 | ((code - 0x100) << 8);` in `uint32_t`
arithmetic. -/
def keyDownCode (code : Nat) : Nat :=
  if 0x100 < code then (((code - 0x100) <<< 8) % U32) ||| 0xe0 else code

/-- Code transformation performed by `purespice_keyUp`:
`if (code < 0x100) code |= 0x80; else code = 0x80e0 | ((code - 0x100) << 8);`
in `uint32_t` arithmetic. -/
def keyUpCode (code : Nat) : Nat :=
  if code < 0x100 then code ||| 0x80
  else (((code - 0x100) <<< 8) % U32) ||| 0x80e0

/-! ## Outbound operation guards

Every outbound operation in `channel_inputs.c` starts with
`if (!channel->connected || !channel->ready) return false;`.
`purespice_writeAudio` in `channel_record.c` starts with
`if (!channel->connected) return false;` only.
An operation is modelled as a function returning `none` when it bails out
without sending, and `some payload` when it proceeds to emit a packet. -/

/-- The two transport flags of a `PSChannel` that gate outbound sends. -/
structure OutChannel where
  connected : Bool
  ready : Bool

/-- Embedding of `purespice_keyDown` (guard plus the code actually sent). -/
def purespice_keyDown (ch : OutChannel) (code : Nat) : Option Nat :=
  if ch.connected && ch.ready then some (keyDownCode code) else none

/-- Embedding of `purespice_keyUp` (guard plus the code actually sent). -/
def purespice_keyUp (ch : OutChannel) (code : Nat) : Option Nat :=
  if ch.connected && ch.ready then some (keyUpCode code) else none

/-- Embedding of `purespice_keyModifiers` (guard plus the modifier mask sent). -/
def purespice_keyModifiers (ch : OutChannel) (modifiers : Nat) : Option Nat :=
  if ch.connected && ch.ready then some modifiers else none

/-- Embedding of `purespice_mousePosition` (guard plus the fields sent:
display id 0, button state, x, y). -/
def purespice_mousePosition (ch : OutChannel) (buttonState x y : Nat) :
    Option (Nat × Nat × Nat × Nat) :=
  if ch.connected && ch.ready then some (0, buttonState, x, y) else none

/-- SPICE mouse-button number to button-state mask, as in the `switch`
statements of `purespice_mousePress` and `purespice_mouseRelease`
(`LEFT=1 → 1`, `MIDDLE=2 → 2`, `RIGHT=3 → 4`, `SIDE=6 → 1<<5`,
`EXTRA=7 → 1<<6`, anything else leaves the state untouched). -/
def mouseButtonMask (button : Nat) : Nat :=
  if button = 1 then 1
  else if button = 2 then 2
  else if button = 3 then 4
  else if button = 6 then 32
  else if button = 7 then 64
  else 0

/-- Embedding of `purespice_mousePress`: guard, then OR the button mask into
the shared button state and send `(button, newState)`. -/
def purespice_mousePress (ch : OutChannel) (buttonState button : Nat) :
    Option (Nat × Nat) :=
  if ch.connected && ch.ready then
    some (button, buttonState ||| mouseButtonMask button)
  else none

/-- Embedding of `purespice_mouseRelease`: guard, then AND the complemented
button mask into the shared button state and send `(button, newState)`. -/
def purespice_mouseRelease (ch : OutChannel) (buttonState button : Nat) :
    Option (Nat × Nat) :=
  if ch.connected && ch.ready then
    some (button, buttonState &&& ((U32 - 1) ^^^ mouseButtonMask button))
  else none

/-- Embedding of `purespice_writeAudio` from `channel_record.c`: the guard
checks only `channel->connected` (not `ready`); on success the record-data
packet (time field plus the audio bytes) is sent. -/
def purespice_writeAudio (ch : OutChannel) (data : List Nat) (time : Nat) :
    Option (Nat × List Nat) :=
  if ch.connected then some (time, data) else none

/-! ## Mouse-motion packetisation (`purespice_mouseMotion`) -/

/-- Per-axis clamp of one motion sub-message:
`m->x = x > 127 ? 127 : (x < -127 ? -127 : x);`. -/
def clamp127 (v : Int) : Int :=
  if 127 < v then 127 else if v < -127 then -127 else v

/-- The packetisation loop of `purespice_mouseMotion`:
`while (x != 0 || y != 0)` emit `(clamp127 x, clamp127 y)` and subtract the
emitted deltas from the remainder. -/
def motionLoop (x y : Int) : List (Int × Int) :=
  if x = 0 ∧ y = 0 then []
  else (clamp127 x, clamp127 y) :: motionLoop (x - clamp127 x) (y - clamp127 y)
termination_by x.natAbs + y.natAbs
decreasing_by
  unfold clamp127
  split
  · omega
  · split <;> omega

/-- Embedding of `purespice_mouseMotion`: guard on `connected && ready`;
`delta = max |x| |y|`, `msgs = (delta + 126) / 127`; when `msgs == 1` a
single packet `(x, y)` is sent, otherwise the loop output is written as one
burst.  The result is the emitted sub-message list together with the amount
added to the outstanding-motion counter `g_ps.mouse.sentCount`. -/
def purespice_mouseMotion (ch : OutChannel) (x y : Int) :
    Option (List (Int × Int) × Nat) :=
  if ch.connected && ch.ready then
    let delta := max x.natAbs y.natAbs
    let msgs := (delta + 126) / 127
    if msgs = 1 then some ([(x, y)], 1)
    else some (motionLoop x y, msgs)
  else none

/-! ## Motion-ack discipline (`onMessage_inputsMouseMotionAck`) -/

/-- The number of motion messages one server ack covers.
Modelled from the spec: the constant `SPICE_INPUT_MOTION_ACK_BUNCH` comes
from the external `spice/protocol.h` header, which is not part of this
repository; the spec fixes the bunch size at 16. -/
def SPICE_INPUT_MOTION_ACK_BUNCH : Nat := 16

/-- Embedding of `onMessage_inputsMouseMotionAck`:
`count = atomic_fetch_sub(&sentCount, BUNCH)` returns the previous value and
stores `sentCount - BUNCH`; the handler reports an error when
`count < BUNCH`.  The result is the new counter plus the error flag. -/
def onMessage_inputsMouseMotionAck (sentCount : Int) : Int × Bool :=
  (sentCount - SPICE_INPUT_MOTION_ACK_BUNCH,
   decide (sentCount < SPICE_INPUT_MOTION_ACK_BUNCH))

/-- An event visible to the outstanding-motion counter: one emitted motion
packet (`atomic_fetch_add(&sentCount, 1)` per packet) or one inbound
motion ack. -/
inductive MotionEvent
  | motion
  | ack
deriving DecidableEq

/-- Number of motion packets in an event list. -/
def motionsIn (tr : List MotionEvent) : Nat :=
  tr.countP fun e => e = MotionEvent.motion

/-- Number of motion acks in an event list. -/
def acksIn (tr : List MotionEvent) : Nat :=
  tr.countP fun e => e = MotionEvent.ack

/-- Run the outstanding-motion counter over an event trace, recording whether
any ack handler reported an error. -/
def motionRun (sentCount : Int) : List MotionEvent → Int × Bool
  | [] => (sentCount, false)
  | MotionEvent.motion :: rest => motionRun (sentCount + 1) rest
  | MotionEvent.ack :: rest =>
    let r := onMessage_inputsMouseMotionAck sentCount
    let rec1 := motionRun r.1 rest
    (rec1.1, r.2 || rec1.2)

/-- A trace is ack-valid when at every prefix the server has never acked more
motion packets than it has received in full bunches. -/
def ackValid (tr : List MotionEvent) : Bool :=
  (List.range (tr.length + 1)).all fun k =>
    SPICE_INPUT_MOTION_ACK_BUNCH * acksIn (tr.take k) ≤ motionsIn (tr.take k)

/-! ## Per-channel ack window (`channel.c`, current revision)

`channel_ack` is
`if (ackFrequency == 0) return true; if (++ackCount != ackFrequency) return
true; ackCount = 0; <emit one-byte MSGC_ACK packet>` and `onMessage_setAck`
stores the window and replies with an `ACK_SYNC` carrying the same
generation. -/

/-- The ack bookkeeping of a `PSChannel`. -/
structure AckChannel where
  ackFrequency : Nat
  ackCount : Nat
deriving DecidableEq

/-- Embedding of `channel_ack`: called once per completed message header;
returns the new state and the emitted `MSGC_ACK` payload (the single zero
byte) when one is due.  The increment is `uint32_t` arithmetic. -/
def channel_ack (ch : AckChannel) : AckChannel × Option (List Nat) :=
  if ch.ackFrequency = 0 then (ch, none)
  else
    let c := (ch.ackCount + 1) % U32
    if c ≠ ch.ackFrequency then ({ ch with ackCount := c }, none)
    else ({ ch with ackCount := 0 }, some [0])

/-- Embedding of `onMessage_setAck`: store the server-requested window and
reply with an `ACK_SYNC` packet carrying the same generation. -/
def onMessage_setAck (ch : AckChannel) (generation window : Nat) :
    AckChannel × Nat :=
  ({ ch with ackFrequency := window }, generation)

/-- Read `n` message headers, applying `channel_ack` after each one as
`purespice_process` does, and collect every emitted ack packet. -/
def ackRun : AckChannel → Nat → AckChannel × List (List Nat)
  | ch, 0 => (ch, [])
  | ch, n + 1 =>
    let r := channel_ack ch
    let rest := ackRun r.1 n
    (rest.1, r.2.toList ++ rest.2)

/-! ## MAIN channel readiness (`channel_main.c`) -/

/-- The `struct ChannelMain` state of `channel_main.c`. -/
structure ChannelMain where
  ready : Bool
  capAgentTokens : Bool
  capNameAndUUID : Bool
  hasName : Bool
  hasUUID : Bool
  hasList : Bool
deriving DecidableEq

/-- Embedding of `channelMain_setCaps`: the server-reported capability lists
are ignored (`(void)` casts) and both capabilities are unconditionally
recorded as supported. -/
def channelMain_setCaps (cm : ChannelMain) (common : List Nat) (numCommon : Nat)
    (channel : List Nat) (numChannel : Nat) : ChannelMain :=
  { cm with capAgentTokens := true, capNameAndUUID := true }

/-- Embedding of `checkReady`: fire the application ready callback exactly
when it has not fired yet, the name and UUID are in (whenever the
name-and-UUID capability is recorded) and the channels list is in.  The
boolean result records whether the callback fired during this call. -/
def checkReady (cm : ChannelMain) : ChannelMain × Bool :=
  if cm.ready then (cm, false)
  else if cm.capNameAndUUID && (!cm.hasName || !cm.hasUUID) then (cm, false)
  else if !cm.hasList then (cm, false)
  else ({ cm with ready := true }, true)

/-- The three MAIN-channel messages that feed `checkReady`. -/
inductive MainEvent
  | name
  | uuid
  | list
deriving DecidableEq

/-- One message-handler step of `channel_main.c`: `onMessage_mainName`,
`onMessage_mainUUID` and `onMessage_mainChannelsList` each set their flag and
call `checkReady`. -/
def mainStep (cm : ChannelMain) : MainEvent → ChannelMain × Bool
  | MainEvent.name => checkReady { cm with hasName := true }
  | MainEvent.uuid => checkReady { cm with hasUUID := true }
  | MainEvent.list => checkReady { cm with hasList := true }

/-- Process a sequence of MAIN-channel messages, counting how many times the
ready callback fires. -/
def mainRun (cm : ChannelMain) : List MainEvent → ChannelMain × Nat
  | [] => (cm, 0)
  | e :: rest =>
    let r := mainStep cm e
    let rest1 := mainRun r.1 rest
    (rest1.1, (if r.2 then 1 else 0) + rest1.2)

/-- The `struct ChannelMain` state right after the link handshake: the
connect packet builder `memset`s the struct to zero and the link layer then
invokes `channelMain_setCaps`. -/
def channelMainInit : ChannelMain :=
  channelMain_setCaps ⟨false, false, false, false, false, false⟩ [] 0 [] 0

/-! ## Session connected flags (`ps.c`)

`purespice_connect` sets `g_ps.connected = true` after the MAIN channel came
up; `purespice_disconnect` clears it and internally disconnects every
channel; `purespice_process` clears individual channels' `connected` flags
(through `channel_internal_disconnect`) when their sockets drop but never
writes `g_ps.connected`, returning `PS_STATUS_SHUTDOWN` once no channel is
left connected. -/

/-- The per-channel `connected` flags of the five channels of `g_ps`. -/
structure ChannelFlags where
  main : Bool
  inputs : Bool
  playback : Bool
  record : Bool
  display : Bool
deriving DecidableEq

/-- The session-level state relevant to the connected invariant. -/
structure Session where
  connected : Bool
  channels : ChannelFlags
deriving DecidableEq

/-- Whether at least one channel is connected. -/
def someChannelConnected (s : Session) : Bool :=
  s.channels.main || s.channels.inputs || s.channels.playback ||
  s.channels.record || s.channels.display

/-- State after `purespice_connect` returns `true`: the MAIN channel is
connected and `g_ps.connected` has been set. -/
def purespice_connect_model : Session :=
  ⟨true, ⟨true, false, false, false, false⟩⟩

/-- State after `purespice_disconnect` returns: `g_ps.connected` cleared and
every channel internally disconnected. -/
def purespice_disconnect_model (s : Session) : Session :=
  ⟨false, ⟨false, false, false, false, false⟩⟩

/-- One `purespice_process` call, abstracted over the set `drop` of channels
whose sockets the server closed during the tick: each dropped channel goes
through `channel_internal_disconnect` (clearing its `connected` flag), the
session flag is left untouched, and the call returns shutdown (`true`) when
no channel remains connected. -/
def purespice_process_model (s : Session) (drop : ChannelFlags) :
    Session × Bool :=
  let chans : ChannelFlags :=
    ⟨s.channels.main && !drop.main,
     s.channels.inputs && !drop.inputs,
     s.channels.playback && !drop.playback,
     s.channels.record && !drop.record,
     s.channels.display && !drop.display⟩
  let s1 : Session := ⟨s.connected, chans⟩
  (s1, !someChannelConnected s1)

/-! ## Agent clipboard-release path (`agent.c`) -/

/-- VD agent protocol version (`spice/vd_agent.h`, external header). -/
def VD_AGENT_PROTOCOL : Nat := 1

/-- VD agent message type of a clipboard data transfer
(`spice/vd_agent.h`, external header). -/
def VD_AGENT_CLIPBOARD : Nat := 4

/-- VD agent message type of a clipboard release
(`spice/vd_agent.h`, external header). -/
def VD_AGENT_CLIPBOARD_RELEASE : Nat := 9

/-- VD agent clipboard selection code
(`spice/vd_agent.h`, external header). -/
def VD_AGENT_CLIPBOARD_SELECTION_CLIPBOARD : Nat := 0

/-- Maximum payload bytes of one agent carrier packet
(`spice/vd_agent.h`, external header). -/
def VD_AGENT_MAX_DATA_SIZE : Nat := 2048

/-- An entry of the agent outbound queue: either the `VDAgentMessage` start
header queued by `agent_startMsg` (type and declared size) or a raw data
chunk queued by `agent_writeMsg`. -/
inductive QueueMsg
  | start (msgType msgSize : Nat)
  | chunk (data : List Nat)
deriving DecidableEq

/-- The agent state relevant to the clipboard ownership operations. -/
structure PSAgentGrab where
  present : Bool
  cbSelection : Bool
  cbClientGrabbed : Bool
  queue : List QueueMsg
deriving DecidableEq

/-- Embedding of `agent_startMsg`: queue a `VDAgentMessage` header packet.
(The drain of the queue over the socket is abstracted away.) -/
def agent_startMsg (s : PSAgentGrab) (msgType msgSize : Nat) : PSAgentGrab :=
  { s with queue := s.queue ++ [QueueMsg.start msgType msgSize] }

/-- The fragmentation loop of `agent_writeMsg`: split a body into carrier
chunks of at most `VD_AGENT_MAX_DATA_SIZE` bytes. -/
def writeMsgChunks (data : List Nat) : List QueueMsg :=
  if data = [] then []
  else QueueMsg.chunk (data.take VD_AGENT_MAX_DATA_SIZE) ::
    writeMsgChunks (data.drop VD_AGENT_MAX_DATA_SIZE)
termination_by data.length
decreasing_by
  rename_i h
  have : data.length ≠ 0 := fun hl => h (List.eq_nil_of_length_eq_zero hl)
  simp [VD_AGENT_MAX_DATA_SIZE]
  omega

/-- Embedding of `agent_writeMsg`: queue the body of the current agent
message in carrier-sized chunks. -/
def agent_writeMsg (s : PSAgentGrab) (data : List Nat) : PSAgentGrab :=
  { s with queue := s.queue ++ writeMsgChunks data }

/-- Embedding of `purespice_clipboardRelease`: `false` when the agent is not
present; a successful no-op when the client does not hold the grab; otherwise
queue a `VD_AGENT_CLIPBOARD_RELEASE` (with the 4-byte selection body when the
selection capability is active) and clear `cbClientGrabbed`. -/
def purespice_clipboardRelease (s : PSAgentGrab) : Bool × PSAgentGrab :=
  if !s.present then (false, s)
  else if !s.cbClientGrabbed then (true, s)
  else if s.cbSelection then
    let s1 := agent_startMsg s VD_AGENT_CLIPBOARD_RELEASE 4
    let s2 := agent_writeMsg s1 [VD_AGENT_CLIPBOARD_SELECTION_CLIPBOARD, 0, 0, 0]
    (true, { s2 with cbClientGrabbed := false })
  else
    (true, { agent_startMsg s VD_AGENT_CLIPBOARD_RELEASE 0 with
             cbClientGrabbed := false })

/-! ## Agent clipboard reassembly (`agent_process` / `agent_onClipboard`) -/

/-- Little-endian 32-bit read of the first four bytes of a byte list, as the
C code does by casting the payload pointer to `uint32_t *`. -/
def readU32LE (l : List Nat) : Nat :=
  l.getD 0 0 + 2 ^ 8 * l.getD 1 0 + 2 ^ 16 * l.getD 2 0 + 2 ^ 24 * l.getD 3 0

/-- Little-endian 32-bit encoding of a value, used to build concrete carrier
payloads. -/
def u32LE (n : Nat) : List Nat :=
  [n % 2 ^ 8, n / 2 ^ 8 % 2 ^ 8, n / 2 ^ 16 % 2 ^ 8, n / 2 ^ 24 % 2 ^ 8]

/-- The clipboard-reassembly state of `struct PSAgent`.  The buffer is the
byte contents of the `malloc`ed `cbBuffer` region written so far (`none`
models the NULL pointer). -/
structure PSAgentCB where
  cbSelection : Bool
  cbType : Nat
  cbBuffer : Option (List Nat)
  cbRemain : Nat
  cbSize : Nat
deriving DecidableEq

/-- Embedding of `agent_onClipboard`: invoke the clipboard `data` callback
with the advertised type, the buffered bytes and `cbSize`, then free the
buffer and zero the counters.  The emitted callback event is returned. -/
def agent_onClipboard (a : PSAgentCB) : PSAgentCB × List (Nat × List Nat × Nat) :=
  ({ a with cbBuffer := none, cbSize := 0, cbRemain := 0 },
   [(a.cbType, a.cbBuffer.getD [], a.cbSize)])

/-- Embedding of the clipboard-relevant part of `agent_process`, applied to
the payload bytes of one `MAIN_AGENT_DATA` carrier.

When `cbRemain != 0` the whole payload is a continuation: it is appended at
offset `cbSize` into the buffer, `cbRemain`/`cbSize` are adjusted in
`uint32_t` arithmetic, and the callback fires when `cbRemain` hits zero.

Otherwise the payload starts with a `VDAgentMessage` header (protocol at
offset 0, type at offset 4, declared size at offset 16, body from offset 20).
A wrong protocol is an error (`none`).  For a `VD_AGENT_CLIPBOARD` message
the optional 4-byte selection header and the 4-byte data-type prefix are
skipped, a pending buffer is an error, the buffer is allocated for
`msg->size - 4` total bytes, the first chunk is copied in, and the callback
fires immediately when nothing remains.  Agent message types other than
`VD_AGENT_CLIPBOARD` leave the reassembly state untouched. -/
def agent_process (a : PSAgentCB) (payload : List Nat) :
    Option (PSAgentCB × List (Nat × List Nat × Nat)) :=
  if a.cbRemain ≠ 0 then
    let a1 : PSAgentCB :=
      { a with
        cbBuffer := some (a.cbBuffer.getD [] ++ payload),
        cbRemain := (a.cbRemain + U32 - payload.length % U32) % U32,
        cbSize := (a.cbSize + payload.length) % U32 }
    if a1.cbRemain = 0 then some (agent_onClipboard a1) else some (a1, [])
  else
    let protocol := readU32LE payload
    let mtype := readU32LE (payload.drop 4)
    let msgSize := readU32LE (payload.drop 16)
    let data := payload.drop 20
    if protocol ≠ VD_AGENT_PROTOCOL then none
    else if mtype = VD_AGENT_CLIPBOARD then
      let data1 := if a.cbSelection then data.drop 4 else data
      let data2 := data1.drop 4
      if a.cbBuffer.isSome then none
      else
        let totalData := (msgSize + U32 - 4) % U32
        let a1 : PSAgentCB :=
          { a with
            cbBuffer := some data2,
            cbSize := data2.length,
            cbRemain := (totalData + U32 - data2.length % U32) % U32 }
        if a1.cbRemain = 0 then some (agent_onClipboard a1) else some (a1, [])
    else some (a, [])

/-- Process a sequence of agent carrier payloads, collecting every clipboard
callback event. -/
def agent_processAll (a : PSAgentCB) :
    List (List Nat) → Option (PSAgentCB × List (Nat × List Nat × Nat))
  | [] => some (a, [])
  | c :: rest =>
    match agent_process a c with
    | none => none
    | some (a1, ev) =>
      match agent_processAll a1 rest with
      | none => none
      | some (a2, evs) => some (a2, ev ++ evs)

/-- The first carrier of a server clipboard transfer whose declared payload
(excluding the 4-byte type prefix) is `T` bytes and whose first data chunk is
`d1`: a `VDAgentMessage` header (protocol 1, type `VD_AGENT_CLIPBOARD`,
8 opaque bytes, size `T + 4`) followed by the type prefix and the chunk. -/
def mkClipboardCarrier (ty T : Nat) (d1 : List Nat) : List Nat :=
  u32LE VD_AGENT_PROTOCOL ++ u32LE VD_AGENT_CLIPBOARD ++ List.replicate 8 0 ++
    u32LE (T + 4) ++ u32LE ty ++ d1

/-- `buildsTo T acc chunks` holds when, starting from `acc` bytes already
accumulated, the chunks fill the declared total `T` exactly, reaching it
exactly at the last chunk. -/
def buildsTo (T : Nat) : Nat → List (List Nat) → Bool
  | acc, [] => acc = T
  | acc, d :: rest =>
    (decide (acc + d.length ≤ T)) &&
    (decide (acc + d.length < T) || rest.isEmpty) &&
    buildsTo T (acc + d.length) rest

/-! ## Helper lemmas -/

theorem and_shiftLeft_ne_zero (w k : Nat) :
    (w &&& (1 <<< k) ≠ 0) ↔ w.testBit k = true := by
  rw [Nat.shiftLeft_eq, one_mul, Nat.and_two_pow]
  have h2 : (2 : Nat) ^ k ≠ 0 := by positivity
  cases h : w.testBit k <;> simp [h2]

theorem HAS_CAPABILITY_eq_testBit (caps : List Nat) (size i : Nat) :
    HAS_CAPABILITY caps size i =
      (decide (i < size * 32) && (caps.getD (i / 32) 0).testBit (i % 32)) := by
  unfold HAS_CAPABILITY
  congr 1
  cases h : (caps.getD (i / 32) 0).testBit (i % 32) with
  | false =>
    refine decide_eq_false fun hc => ?_
    rw [and_shiftLeft_ne_zero] at hc
    rw [h] at hc
    exact Bool.false_ne_true hc
  | true => exact decide_eq_true ((and_shiftLeft_ne_zero _ _).mpr h)

/-- C9: capability-bitset set/test laws: setting an in-range index makes the
test true, a zero-initialised bitset tests false everywhere, and setting one
index leaves every other index unchanged. -/
theorem claim9_capability_bitset_laws (caps : List Nat) (i j : Nat)
    (hi : i < caps.length * 32) (hij : j ≠ i) :
    HAS_CAPABILITY (SET_CAPABILITY caps i) caps.length i = true ∧
    (∀ n k, HAS_CAPABILITY (List.replicate n 0) n k = false) ∧
    HAS_CAPABILITY (SET_CAPABILITY caps i) caps.length j =
      HAS_CAPABILITY caps caps.length j := by
  have hlen : i / 32 < caps.length := by omega
  refine ⟨?_, ?_, ?_⟩
  · rw [HAS_CAPABILITY_eq_testBit]
    have hset : (SET_CAPABILITY caps i).getD (i / 32) 0 =
        caps.getD (i / 32) 0 ||| (1 <<< (i % 32)) := by
      simp [SET_CAPABILITY, List.getD, List.getElem?_set_self, hlen]
    rw [hset, Nat.shiftLeft_eq, one_mul]
    simp [hi, Nat.testBit_or, Nat.testBit_two_pow_self]
  · intro n k
    rw [HAS_CAPABILITY_eq_testBit]
    have hz : (List.replicate n (0 : Nat)).getD (k / 32) 0 = 0 := by
      simp [List.getD, List.getElem?_replicate]
      split <;> rfl
    rw [hz]
    simp [Nat.zero_testBit]
  · rw [HAS_CAPABILITY_eq_testBit, HAS_CAPABILITY_eq_testBit]
    suffices h : ((SET_CAPABILITY caps i).getD (j / 32) 0).testBit (j % 32) =
        (caps.getD (j / 32) 0).testBit (j % 32) by rw [h]
    by_cases hw : i / 32 = j / 32
    · have hword : (SET_CAPABILITY caps i).getD (j / 32) 0 =
          caps.getD (j / 32) 0 ||| (1 <<< (i % 32)) := by
        rw [← hw]
        simp [SET_CAPABILITY, List.getD, List.getElem?_set_self, hlen]
      have hbit : i % 32 ≠ j % 32 := by omega
      rw [hword, Nat.shiftLeft_eq, one_mul, Nat.testBit_or,
        Nat.testBit_two_pow_of_ne hbit]
      simp
    · have hword : (SET_CAPABILITY caps i).getD (j / 32) 0 =
          caps.getD (j / 32) 0 := by
        simp [SET_CAPABILITY, List.getD, List.getElem?_set_ne hw]
      rw [hword]

theorem claim9_witness :
    (2 < ([0, 0] : List Nat).length * 32 ∧ (37 : Nat) ≠ 2) ∧
    (HAS_CAPABILITY (SET_CAPABILITY [0, 0] 2) ([0, 0] : List Nat).length 2 = true ∧
     (∀ n k, HAS_CAPABILITY (List.replicate n 0) n k = false) ∧
     HAS_CAPABILITY (SET_CAPABILITY [0, 0] 2) ([0, 0] : List Nat).length 37 =
       HAS_CAPABILITY [0, 0] ([0, 0] : List Nat).length 37) :=
  ⟨⟨by decide, by decide⟩,
   claim9_capability_bitset_laws [0, 0] 2 37 (by decide) (by decide)⟩

/-- C7: keyDown sends the scancode unchanged for codes at most 0x100 and
`0xe0 | ((code - 0x100) << 8)` above; keyUp sends `code | 0x80` below 0x100
and `0x80e0 | ((code - 0x100) << 8)` otherwise; consequently, for every key
code other than the non-key boundary value 0x100, the up code is the down
code with the break bit ORed in (0x80 in the low byte for single-byte codes,
0x8000 in the scancode byte for extended codes). -/
theorem claim7_scancode_mapping (code : Nat) :
    (code ≤ 0x100 → purespice_keyDown ⟨true, true⟩ code = some code) ∧
    (0x100 < code → purespice_keyDown ⟨true, true⟩ code =
      some (0xe0 ||| (((code - 0x100) <<< 8) % U32))) ∧
    (code < 0x100 → purespice_keyUp ⟨true, true⟩ code = some (code ||| 0x80)) ∧
    (0x100 ≤ code → purespice_keyUp ⟨true, true⟩ code =
      some (0x80e0 ||| (((code - 0x100) <<< 8) % U32))) ∧
    (code ≠ 0x100 →
      keyUpCode code = keyDownCode code |||
        (if code < 0x100 then 0x80 else 0x8000)) := by
  refine ⟨?_, ?_, ?_, ?_, ?_⟩
  · intro h
    simp [purespice_keyDown, keyDownCode, show ¬(0x100 < code) from by omega]
  · intro h
    simp [purespice_keyDown, keyDownCode, h, Nat.or_comm]
  · intro h
    simp [purespice_keyUp, keyUpCode, h]
  · intro h
    simp [purespice_keyUp, keyUpCode, show ¬(code < 0x100) from by omega,
      Nat.or_comm]
  · intro h
    by_cases hlt : code < 0x100
    · simp [keyUpCode, keyDownCode, hlt, show ¬(0x100 < code) from by omega]
    · have hgt : 0x100 < code := by omega
      simp only [keyUpCode, keyDownCode, hlt, hgt, if_true, if_false,
        if_neg hlt, if_pos hgt]
      rw [Nat.or_assoc, show (0xe0 ||| 0x8000 : Nat) = 0x80e0 from by decide]

theorem claim7_witness :
    ((0x1e : Nat) ≤ 0x100 ∧ (0x1e : Nat) ≠ 0x100) ∧
    (((0x1e : Nat) ≤ 0x100 → purespice_keyDown ⟨true, true⟩ 0x1e = some 0x1e) ∧
     (0x100 < (0x1e : Nat) → purespice_keyDown ⟨true, true⟩ 0x1e =
       some (0xe0 ||| ((((0x1e : Nat) - 0x100) <<< 8) % U32))) ∧
     ((0x1e : Nat) < 0x100 → purespice_keyUp ⟨true, true⟩ 0x1e =
       some (0x1e ||| 0x80)) ∧
     (0x100 ≤ (0x1e : Nat) → purespice_keyUp ⟨true, true⟩ 0x1e =
       some (0x80e0 ||| ((((0x1e : Nat) - 0x100) <<< 8) % U32))) ∧
     ((0x1e : Nat) ≠ 0x100 →
       keyUpCode 0x1e = keyDownCode 0x1e |||
         (if (0x1e : Nat) < 0x100 then 0x80 else 0x8000))) :=
  ⟨⟨by decide, by decide⟩, claim7_scancode_mapping 0x1e⟩

/-- C5 counterexample: with the RECORD channel connected but not yet ready,
`purespice_writeAudio` does not bail out; it sends the record-data packet,
because its guard checks only `connected`. -/
theorem claim5_counterexample :
    purespice_writeAudio ⟨true, false⟩ [7] 3 = some (3, [7]) ∧
    ¬((⟨true, false⟩ : OutChannel).connected = true ∧
      (⟨true, false⟩ : OutChannel).ready = true) := by
  exact ⟨rfl, by decide⟩

/-- C5 (amended): every outbound input-submission operation returns false
without sending anything unless its channel is both connected and ready;
`purespice_writeAudio` only requires the channel to be connected, and it
proceeds to send whenever `connected` holds, even when `ready` is false. -/
theorem claim5_output_guards :
    (∀ (ch : OutChannel) (code modifiers bs x y : Nat) (xm ym : Int),
      ¬(ch.connected = true ∧ ch.ready = true) →
      purespice_keyDown ch code = none ∧
      purespice_keyUp ch code = none ∧
      purespice_keyModifiers ch modifiers = none ∧
      purespice_mousePosition ch bs x y = none ∧
      purespice_mouseMotion ch xm ym = none ∧
      purespice_mousePress ch bs code = none ∧
      purespice_mouseRelease ch bs code = none) ∧
    (∀ (ch : OutChannel) (data : List Nat) (time : Nat),
      ch.connected = false → purespice_writeAudio ch data time = none) ∧
    (∀ (data : List Nat) (time : Nat),
      purespice_writeAudio ⟨true, false⟩ data time = some (time, data)) := by
  refine ⟨?_, ?_, ?_⟩
  · intro ch code modifiers bs x y xm ym h
    have hg : (ch.connected && ch.ready) = false := by
      rcases ch with ⟨c, r⟩
      cases c <;> cases r <;> simp_all
    simp [purespice_keyDown, purespice_keyUp, purespice_keyModifiers,
      purespice_mousePosition, purespice_mouseMotion, purespice_mousePress,
      purespice_mouseRelease, hg]
  · intro ch data time h
    simp [purespice_writeAudio, h]
  · intro data time
    rfl

theorem claim5_witness :
    (¬((⟨false, true⟩ : OutChannel).connected = true ∧
       (⟨false, true⟩ : OutChannel).ready = true)) ∧
    (purespice_keyDown ⟨false, true⟩ 3 = none ∧
     purespice_keyUp ⟨false, true⟩ 3 = none ∧
     purespice_keyModifiers ⟨false, true⟩ 0 = none ∧
     purespice_mousePosition ⟨false, true⟩ 0 1 2 = none ∧
     purespice_mouseMotion ⟨false, true⟩ 5 5 = none ∧
     purespice_mousePress ⟨false, true⟩ 0 3 = none ∧
     purespice_mouseRelease ⟨false, true⟩ 0 3 = none) :=
  ⟨by decide, claim5_output_guards.1 ⟨false, true⟩ 3 0 0 1 2 5 5 (by decide)⟩

theorem ackRun_freq_zero (n : Nat) : ∀ c, ackRun ⟨0, c⟩ n = (⟨0, c⟩, []) := by
  induction n with
  | zero => intro c; rfl
  | succ n ih => intro c; simp [ackRun, channel_ack, ih]

theorem ackRun_window (W : Nat) (hW : 0 < W) (hU : W < U32) :
    ∀ n c, c < W →
      ackRun ⟨W, c⟩ n = (⟨W, (c + n) % W⟩, List.replicate ((c + n) / W) [0]) := by
  intro n
  induction n with
  | zero =>
    intro c hc
    simp [ackRun, Nat.mod_eq_of_lt hc, Nat.div_eq_of_lt hc]
  | succ n ih =>
    intro c hc
    have hne : W ≠ 0 := by omega
    have hmod : (c + 1) % U32 = c + 1 := Nat.mod_eq_of_lt (by omega)
    by_cases he : c + 1 = W
    · have h0 := ih 0 hW
      have harith : c + (n + 1) = W + n := by omega
      have hWU : W % U32 = W := Nat.mod_eq_of_lt hU
      simp only [ackRun, channel_ack, hne, if_false, hmod, he, ite_not,
        if_pos rfl, ne_eq, not_true_eq_false, hWU]
      rw [h0]
      simp only [Option.toList_some]
      rw [harith, Nat.add_mod_left,
        show (W + n) / W = n / W + 1 by rw [Nat.add_comm, Nat.add_div_right _ hW],
        List.replicate_succ]
      simp
    · have hlt : c + 1 < W := by omega
      have hrec := ih (c + 1) hlt
      have harith : c + 1 + n = c + (n + 1) := by omega
      simp only [ackRun, channel_ack, hne, if_false, hmod, he, ne_eq,
        not_false_eq_true, if_true]
      rw [hrec, harith]
      simp

/-- C2: after the channel-connect reset, a `SET_ACK` with generation `g` and
window `W` elicits an `ACK_SYNC` carrying `g`; thereafter, when `W` is
nonzero, reading `n` message headers emits exactly `n / W` one-byte (single
zero byte) `MSGC_ACK` packets, leaving the counter at `n % W` — one ack after
every `W` headers read; when the window is zero, no acks are ever emitted;
and at each single header read an ack is emitted exactly when the
incremented counter equals the window. -/
theorem claim2_ack_window_discipline (gen W n : Nat) (hU : W < U32) :
    (onMessage_setAck ⟨0, 0⟩ gen W).2 = gen ∧
    (0 < W → ackRun (onMessage_setAck ⟨0, 0⟩ gen W).1 n =
      (⟨W, n % W⟩, List.replicate (n / W) [0])) ∧
    (W = 0 → ackRun (onMessage_setAck ⟨0, 0⟩ gen W).1 n = (⟨0, 0⟩, [])) ∧
    (∀ ch : AckChannel, ch.ackFrequency ≠ 0 → ch.ackCount + 1 < U32 →
      ((channel_ack ch).2 = some [0] ↔ ch.ackCount + 1 = ch.ackFrequency)) := by
  refine ⟨rfl, ?_, ?_, ?_⟩
  · intro hW
    have h := ackRun_window W hW hU n 0 hW
    simpa using h
  · intro h0
    subst h0
    exact ackRun_freq_zero n 0
  · intro ch hne hcb
    have hmod : (ch.ackCount + 1) % U32 = ch.ackCount + 1 := Nat.mod_eq_of_lt hcb
    by_cases he : ch.ackCount + 1 = ch.ackFrequency
    · have hWU : ch.ackFrequency % U32 = ch.ackFrequency :=
        Nat.mod_eq_of_lt (he ▸ hcb)
      simp [channel_ack, hne, hmod, he, hWU]
    · simp [channel_ack, hne, hmod, he]

theorem claim2_witness :
    ((3 : Nat) < U32) ∧
    ((onMessage_setAck ⟨0, 0⟩ 42 3).2 = 42 ∧
     (0 < 3 → ackRun (onMessage_setAck ⟨0, 0⟩ 42 3).1 3 =
       (⟨3, 3 % 3⟩, List.replicate (3 / 3) [0])) ∧
     ((3 : Nat) = 0 → ackRun (onMessage_setAck ⟨0, 0⟩ 42 3).1 3 = (⟨0, 0⟩, [])) ∧
     (∀ ch : AckChannel, ch.ackFrequency ≠ 0 → ch.ackCount + 1 < U32 →
       ((channel_ack ch).2 = some [0] ↔ ch.ackCount + 1 = ch.ackFrequency))) :=
  ⟨by norm_num [U32], claim2_ack_window_discipline 42 3 3 (by norm_num [U32])⟩

/-- C8: when the agent is present and the client does not hold the clipboard
grab, `purespice_clipboardRelease` succeeds as a pure no-op (no agent message
queued, no state changed); when the agent is absent it fails. -/
theorem claim8_clipboard_release_noop (s : PSAgentGrab) :
    (s.present = false → purespice_clipboardRelease s = (false, s)) ∧
    (s.present = true → s.cbClientGrabbed = false →
      purespice_clipboardRelease s = (true, s)) := by
  constructor
  · intro h
    simp [purespice_clipboardRelease, h]
  · intro hp hg
    simp [purespice_clipboardRelease, hp, hg]

theorem claim8_witness :
    ((PSAgentGrab.mk true false false []).present = true ∧
     (PSAgentGrab.mk true false false []).cbClientGrabbed = false) ∧
    purespice_clipboardRelease ⟨true, false, false, []⟩ =
      (true, ⟨true, false, false, []⟩) :=
  ⟨⟨rfl, rfl⟩,
   (claim8_clipboard_release_noop ⟨true, false, false, []⟩).2 rfl rfl⟩

/-- C6 counterexample: starting from the state right after a successful
`purespice_connect`, one `purespice_process` tick in which the server drops
the MAIN channel leaves every channel disconnected while the session
`connected` flag is still true (the process shutdown path never clears
`g_ps.connected`), violating the claimed iff. -/
theorem claim6_counterexample :
    (purespice_process_model purespice_connect_model
      ⟨true, false, false, false, false⟩).1.connected = true ∧
    someChannelConnected (purespice_process_model purespice_connect_model
      ⟨true, false, false, false, false⟩).1 = false ∧
    (purespice_process_model purespice_connect_model
      ⟨true, false, false, false, false⟩).2 = true := by
  exact ⟨rfl, rfl, rfl⟩

/-- C6 (amended): the session `connected` flag equals "some channel is
connected" after `purespice_connect` returns true and after
`purespice_disconnect` returns; `purespice_process` preserves the forward
direction (if a channel is still connected, the session flag is still set)
but when the server drops the last channel during process the session flag
can remain true with no channel connected, until `purespice_disconnect` is
called. -/
theorem claim6_connected_invariant :
    (purespice_connect_model.connected =
      someChannelConnected purespice_connect_model) ∧
    (∀ s, (purespice_disconnect_model s).connected =
      someChannelConnected (purespice_disconnect_model s)) ∧
    (∀ s drop, (someChannelConnected s = true → s.connected = true) →
      someChannelConnected (purespice_process_model s drop).1 = true →
      (purespice_process_model s drop).1.connected = true) := by
  refine ⟨rfl, fun s => rfl, ?_⟩
  intro s drop hfwd hsome
  rcases s with ⟨c, ⟨m, i, p, r, d⟩⟩
  rcases drop with ⟨dm, di, dp, dr, dd⟩
  apply hfwd
  simp only [someChannelConnected, purespice_process_model] at hsome ⊢
  cases m <;> cases i <;> cases p <;> cases r <;> cases d <;> simp_all

theorem claim6_witness :
    (someChannelConnected ⟨true, true, false, false, false, false⟩ = true →
      (⟨true, true, false, false, false, false⟩ : Session).connected = true) ∧
    (someChannelConnected (purespice_process_model
        ⟨true, true, false, false, false, false⟩
        ⟨false, false, false, false, false⟩).1 = true →
      (purespice_process_model ⟨true, true, false, false, false, false⟩
        ⟨false, false, false, false, false⟩).1.connected = true) :=
  ⟨by decide,
   claim6_connected_invariant.2.2 ⟨true, ⟨true, false, false, false, false⟩⟩
     ⟨false, false, false, false, false⟩ (by decide)⟩

theorem motionsIn_append (l1 l2 : List MotionEvent) :
    motionsIn (l1 ++ l2) = motionsIn l1 + motionsIn l2 := by
  simp [motionsIn, List.countP_append]

theorem acksIn_append (l1 l2 : List MotionEvent) :
    acksIn (l1 ++ l2) = acksIn l1 + acksIn l2 := by
  simp [acksIn, List.countP_append]

/-- The predicate of `ackValid` spelled out for every prefix length. -/
def ackBounded (tr : List MotionEvent) : Prop :=
  ∀ k, SPICE_INPUT_MOTION_ACK_BUNCH * acksIn (tr.take k) ≤
    motionsIn (tr.take k)

theorem ackValid_iff_bounded (tr : List MotionEvent) :
    ackValid tr = true ↔ ackBounded tr := by
  constructor
  · intro h k
    rw [ackValid, List.all_eq_true] at h
    by_cases hk : k ≤ tr.length
    · have hmem := h k (by rw [List.mem_range]; omega)
      simpa using hmem
    · have hmem := h tr.length (by rw [List.mem_range]; omega)
      have ht : tr.take k = tr := List.take_of_length_le (by omega)
      have ht2 : tr.take tr.length = tr := List.take_of_length_le (by omega)
      rw [ht2] at hmem
      rw [ht]
      simpa using hmem
  · intro h
    rw [ackValid, List.all_eq_true]
    intro k hk
    simpa using h k

theorem take_append_singleton (done rest : List MotionEvent) (e : MotionEvent) :
    (done ++ e :: rest).take (done.length + 1) = done ++ [e] := by
  rw [List.take_append_eq_append_take,
    List.take_of_length_le (by omega)]
  congr 1
  simp

theorem motionRun_valid_aux :
    ∀ (todo done : List MotionEvent),
      ackBounded (done ++ todo) →
      motionRun ((motionsIn done : Int) -
          (SPICE_INPUT_MOTION_ACK_BUNCH : Int) * (acksIn done : Int)) todo =
        ((motionsIn (done ++ todo) : Int) -
          (SPICE_INPUT_MOTION_ACK_BUNCH : Int) * (acksIn (done ++ todo) : Int),
         false) := by
  intro todo
  induction todo with
  | nil =>
    intro done h
    simp [motionRun]
  | cons e rest ih =>
    intro done h
    have hsplit : done ++ e :: rest = (done ++ [e]) ++ rest := by simp
    cases e with
    | motion =>
      have hrec := ih (done ++ [MotionEvent.motion]) (by rw [← hsplit]; exact h)
      have hm : motionsIn (done ++ [MotionEvent.motion]) = motionsIn done + 1 := by
        simp [motionsIn, List.countP_append, List.countP_cons]
      have ha : acksIn (done ++ [MotionEvent.motion]) = acksIn done := by
        simp [acksIn, List.countP_append, List.countP_cons]
      rw [hsplit]
      show motionRun ((motionsIn done : Int) -
          (SPICE_INPUT_MOTION_ACK_BUNCH : Int) * (acksIn done : Int) + 1) rest = _
      have hc : (motionsIn done : Int) -
          (SPICE_INPUT_MOTION_ACK_BUNCH : Int) * (acksIn done : Int) + 1 =
          (motionsIn (done ++ [MotionEvent.motion]) : Int) -
          (SPICE_INPUT_MOTION_ACK_BUNCH : Int) *
            (acksIn (done ++ [MotionEvent.motion]) : Int) := by
        rw [hm, ha]; push_cast; ring
      rw [hc, hrec]
    | ack =>
      have hk := h (done.length + 1)
      rw [take_append_singleton] at hk
      have hm : motionsIn (done ++ [MotionEvent.ack]) = motionsIn done := by
        simp [motionsIn, List.countP_append, List.countP_cons]
      have ha : acksIn (done ++ [MotionEvent.ack]) = acksIn done + 1 := by
        simp [acksIn, List.countP_append, List.countP_cons]
      rw [hm, ha] at hk
      have hge : (16 : Int) ≤ (motionsIn done : Int) -
          (SPICE_INPUT_MOTION_ACK_BUNCH : Int) * (acksIn done : Int) := by
        simp only [SPICE_INPUT_MOTION_ACK_BUNCH] at hk ⊢
        push_cast
        omega
      have hrec := ih (done ++ [MotionEvent.ack]) (by rw [← hsplit]; exact h)
      rw [hsplit]
      simp only [motionRun, onMessage_inputsMouseMotionAck]
      have herr : decide ((motionsIn done : Int) -
          (SPICE_INPUT_MOTION_ACK_BUNCH : Int) * (acksIn done : Int) <
          (SPICE_INPUT_MOTION_ACK_BUNCH : Nat)) = false := by
        simp only [SPICE_INPUT_MOTION_ACK_BUNCH] at hge ⊢
        simp only [decide_eq_false_iff_not, not_lt]
        push_cast
        omega
      have hc : (motionsIn done : Int) -
          (SPICE_INPUT_MOTION_ACK_BUNCH : Int) * (acksIn done : Int) -
          (SPICE_INPUT_MOTION_ACK_BUNCH : Nat) =
          (motionsIn (done ++ [MotionEvent.ack]) : Int) -
          (SPICE_INPUT_MOTION_ACK_BUNCH : Int) *
            (acksIn (done ++ [MotionEvent.ack]) : Int) := by
        rw [hm, ha]
        simp only [SPICE_INPUT_MOTION_ACK_BUNCH]
        push_cast
        ring
      rw [herr, hc, hrec]
      simp

/-- C4: over any ack-valid event sequence with `M` motion packets and
`⌊M/16⌋` acks, the outstanding-motion counter ends at `M mod 16`, never goes
negative at any prefix, and no ack handler reports an error; moreover any
single ack whose subtraction would take the counter below zero (in
particular below zero by more than one 16-message bunch) makes the handler
report an error. -/
theorem claim4_motion_ack_balance (tr : List MotionEvent)
    (hvalid : ackValid tr = true)
    (hacks : acksIn tr = motionsIn tr / SPICE_INPUT_MOTION_ACK_BUNCH) :
    motionRun 0 tr =
      (((motionsIn tr % SPICE_INPUT_MOTION_ACK_BUNCH : Nat) : Int), false) ∧
    (∀ k, 0 ≤ (motionRun 0 (tr.take k)).1) ∧
    (∀ c : Int, c - SPICE_INPUT_MOTION_ACK_BUNCH < 0 →
      (onMessage_inputsMouseMotionAck c).2 = true) := by
  have hb : ackBounded tr := (ackValid_iff_bounded tr).mp hvalid
  have hzero : ((motionsIn ([] : List MotionEvent) : Int) -
      (SPICE_INPUT_MOTION_ACK_BUNCH : Int) *
        (acksIn ([] : List MotionEvent) : Int)) = 0 := by
    simp [motionsIn, acksIn]
  refine ⟨?_, ?_, ?_⟩
  · have h := motionRun_valid_aux tr [] (by simpa using hb)
    rw [hzero, List.nil_append] at h
    rw [h]
    have heq : (motionsIn tr : Int) -
        (SPICE_INPUT_MOTION_ACK_BUNCH : Int) * (acksIn tr : Int) =
        ((motionsIn tr % SPICE_INPUT_MOTION_ACK_BUNCH : Nat) : Int) := by
      rw [hacks]
      simp only [SPICE_INPUT_MOTION_ACK_BUNCH]
      push_cast
      omega
    rw [heq]
  · intro k
    have hbk : ackBounded (tr.take k) := by
      intro k2
      rw [List.take_take]
      exact hb (min k2 k)
    have h := motionRun_valid_aux (tr.take k) [] (by simpa using hbk)
    rw [hzero, List.nil_append] at h
    rw [h]
    have hk := hb k
    simp only [SPICE_INPUT_MOTION_ACK_BUNCH] at hk ⊢
    push_cast
    omega
  · intro c hc
    simp only [onMessage_inputsMouseMotionAck, SPICE_INPUT_MOTION_ACK_BUNCH] at hc ⊢
    simp only [decide_eq_true_eq]
    push_cast at hc ⊢
    omega

theorem claim4_witness :
    (ackValid (List.replicate 16 MotionEvent.motion ++
        [MotionEvent.ack, MotionEvent.motion]) = true ∧
     acksIn (List.replicate 16 MotionEvent.motion ++
        [MotionEvent.ack, MotionEvent.motion]) =
       motionsIn (List.replicate 16 MotionEvent.motion ++
          [MotionEvent.ack, MotionEvent.motion]) / SPICE_INPUT_MOTION_ACK_BUNCH) ∧
    motionRun 0 (List.replicate 16 MotionEvent.motion ++
        [MotionEvent.ack, MotionEvent.motion]) =
      (((motionsIn (List.replicate 16 MotionEvent.motion ++
          [MotionEvent.ack, MotionEvent.motion]) %
        SPICE_INPUT_MOTION_ACK_BUNCH : Nat) : Int), false) :=
  ⟨⟨by decide, by decide⟩,
   (claim4_motion_ack_balance
     (List.replicate 16 MotionEvent.motion ++
       [MotionEvent.ack, MotionEvent.motion]) (by decide) (by decide)).1⟩

theorem mainRun_flags :
    ∀ (evs : List MainEvent) (hn hu hl : Bool),
      mainRun ⟨hn && hu && hl, true, true, hn, hu, hl⟩ evs =
        (⟨(hn || decide (MainEvent.name ∈ evs)) &&
            (hu || decide (MainEvent.uuid ∈ evs)) &&
            (hl || decide (MainEvent.list ∈ evs)),
          true, true,
          hn || decide (MainEvent.name ∈ evs),
          hu || decide (MainEvent.uuid ∈ evs),
          hl || decide (MainEvent.list ∈ evs)⟩,
         if hn && hu && hl then 0
         else if (hn || decide (MainEvent.name ∈ evs)) &&
             (hu || decide (MainEvent.uuid ∈ evs)) &&
             (hl || decide (MainEvent.list ∈ evs)) then 1 else 0) := by
  intro evs
  induction evs with
  | nil =>
    intro hn hu hl
    cases hn <;> cases hu <;> cases hl <;> simp [mainRun]
  | cons e rest ih =>
    intro hn hu hl
    cases e <;> cases hn <;> cases hu <;> cases hl <;>
      simp_all [mainRun, mainStep, checkReady, List.mem_cons]

/-- C10: `channelMain_setCaps` ignores the server-reported capability lists
and unconditionally records both the agent-connected-tokens and the
name-and-UUID capabilities as supported; consequently, starting from the
post-handshake MAIN-channel state, the application ready callback fires at
most once per connection, and it fires exactly when the NAME, UUID and
CHANNELS_LIST messages have all been received. -/
theorem claim10_setCaps_and_ready :
    (∀ cm c1 n1 ch1 m1 c2 n2 ch2 m2,
      channelMain_setCaps cm c1 n1 ch1 m1 = channelMain_setCaps cm c2 n2 ch2 m2 ∧
      (channelMain_setCaps cm c1 n1 ch1 m1).capAgentTokens = true ∧
      (channelMain_setCaps cm c1 n1 ch1 m1).capNameAndUUID = true) ∧
    (∀ evs, (mainRun channelMainInit evs).2 ≤ 1) ∧
    (∀ evs, ((mainRun channelMainInit evs).2 = 1 ↔
      MainEvent.name ∈ evs ∧ MainEvent.uuid ∈ evs ∧ MainEvent.list ∈ evs)) := by
  have hinit : channelMainInit =
      (⟨false && false && false, true, true, false, false, false⟩ : ChannelMain) :=
    rfl
  refine ⟨fun cm c1 n1 ch1 m1 c2 n2 ch2 m2 => ⟨rfl, rfl, rfl⟩, ?_, ?_⟩
  · intro evs
    rw [hinit, mainRun_flags evs false false false]
    by_cases h1 : MainEvent.name ∈ evs <;>
      by_cases h2 : MainEvent.uuid ∈ evs <;>
      by_cases h3 : MainEvent.list ∈ evs <;>
      simp [h1, h2, h3]
  · intro evs
    rw [hinit, mainRun_flags evs false false false]
    by_cases h1 : MainEvent.name ∈ evs <;>
      by_cases h2 : MainEvent.uuid ∈ evs <;>
      by_cases h3 : MainEvent.list ∈ evs <;>
      simp [h1, h2, h3]

theorem natAbs_sub_clamp (v : Int) :
    (v - clamp127 v).natAbs = v.natAbs - min v.natAbs 127 := by
  unfold clamp127
  split
  · omega
  · split <;> omega

theorem motionLoop_length (x y : Int) :
    (motionLoop x y).length = (max x.natAbs y.natAbs + 126) / 127 := by
  induction x, y using motionLoop.induct with
  | case1 x y h =>
    rw [motionLoop, if_pos h]
    obtain ⟨hx, hy⟩ := h
    subst hx; subst hy
    simp
  | case2 x y h ih =>
    rw [motionLoop, if_neg h]
    simp only [List.length_cons, ih]
    have hx := natAbs_sub_clamp x
    have hy := natAbs_sub_clamp y
    omega

theorem motionLoop_sum_fst (x y : Int) :
    ((motionLoop x y).map Prod.fst).sum = x := by
  induction x, y using motionLoop.induct with
  | case1 x y h =>
    rw [motionLoop, if_pos h]
    simp [h.1.symm]
  | case2 x y h ih =>
    rw [motionLoop, if_neg h]
    simp only [List.map_cons, List.sum_cons, ih]
    ring

theorem motionLoop_sum_snd (x y : Int) :
    ((motionLoop x y).map Prod.snd).sum = y := by
  induction x, y using motionLoop.induct with
  | case1 x y h =>
    rw [motionLoop, if_pos h]
    simp [h.2.symm]
  | case2 x y h ih =>
    rw [motionLoop, if_neg h]
    simp only [List.map_cons, List.sum_cons, ih]
    ring

theorem clamp127_natAbs_le (v : Int) : (clamp127 v).natAbs ≤ 127 := by
  unfold clamp127
  split
  · omega
  · split <;> omega

theorem motionLoop_bounds (x y : Int) :
    ∀ p ∈ motionLoop x y, p.1.natAbs ≤ 127 ∧ p.2.natAbs ≤ 127 := by
  induction x, y using motionLoop.induct with
  | case1 x y h =>
    rw [motionLoop, if_pos h]
    intro p hp
    simp at hp
  | case2 x y h ih =>
    rw [motionLoop, if_neg h]
    intro p hp
    rcases List.mem_cons.mp hp with hph | hpr
    · subst hph
      exact ⟨clamp127_natAbs_le x, clamp127_natAbs_le y⟩
    · exact ih p hpr

/-- C3: on a connected and ready INPUTS channel, `purespice_mouseMotion x y`
with `|x|, |y| ≤ 10000` emits exactly `⌈max(|x|,|y|)/127⌉` mouse-motion
sub-messages whose x components sum to `x` and whose y components sum to
`y`, each with `|xᵢ|, |yᵢ| ≤ 127`, and adds that same count to the
outstanding-motion counter. -/
theorem claim3_mouse_motion (ch : OutChannel) (x y : Int)
    (hc : ch.connected = true) (hr : ch.ready = true)
    (hx : x.natAbs ≤ 10000) (hy : y.natAbs ≤ 10000) :
    ∃ l, purespice_mouseMotion ch x y =
        some (l, (max x.natAbs y.natAbs + 126) / 127) ∧
      l.length = (max x.natAbs y.natAbs + 126) / 127 ∧
      (l.map Prod.fst).sum = x ∧ (l.map Prod.snd).sum = y ∧
      ∀ p ∈ l, p.1.natAbs ≤ 127 ∧ p.2.natAbs ≤ 127 := by
  by_cases hm : (max x.natAbs y.natAbs + 126) / 127 = 1
  · refine ⟨[(x, y)], ?_, ?_, by simp, by simp, ?_⟩
    · simp [purespice_mouseMotion, hc, hr, hm]
    · simp [hm]
    · intro p hp
      rcases List.mem_singleton.mp hp with rfl
      have hd : max x.natAbs y.natAbs ≤ 127 := by omega
      constructor
      · omega
      · omega
  · refine ⟨motionLoop x y, ?_, motionLoop_length x y, motionLoop_sum_fst x y,
      motionLoop_sum_snd x y, motionLoop_bounds x y⟩
    simp [purespice_mouseMotion, hc, hr, hm]

theorem claim3_witness :
    ((⟨true, true⟩ : OutChannel).connected = true ∧
     (⟨true, true⟩ : OutChannel).ready = true ∧
     (300 : Int).natAbs ≤ 10000 ∧ (-5 : Int).natAbs ≤ 10000) ∧
    (∃ l, purespice_mouseMotion ⟨true, true⟩ 300 (-5) = some (l, 3) ∧
      l.length = 3 ∧ (l.map Prod.fst).sum = 300 ∧ (l.map Prod.snd).sum = -5 ∧
      ∀ p ∈ l, p.1.natAbs ≤ 127 ∧ p.2.natAbs ≤ 127) ∧
    purespice_mouseMotion ⟨true, true⟩ 300 (-5) =
      some ([(127, -5), (127, 0), (46, 0)], 3) := by
  refine ⟨⟨rfl, rfl, by norm_num, by norm_num⟩, ?_, ?_⟩
  · have h := claim3_mouse_motion ⟨true, true⟩ 300 (-5) rfl rfl
      (by norm_num) (by norm_num)
    have h3 : (max (300 : Int).natAbs (-5 : Int).natAbs + 126) / 127 = 3 := by
      norm_num
    rw [h3] at h
    exact h
  · show (if true && true then _ else none) = _
    norm_num [purespice_mouseMotion]
    rw [motionLoop]
    norm_num [clamp127]
    rw [motionLoop]
    norm_num [clamp127]
    rw [motionLoop]
    norm_num [clamp127]
    rw [motionLoop]
    norm_num

theorem readU32LE_u32LE_append (n : Nat) (l : List Nat) (h : n < U32) :
    readU32LE (u32LE n ++ l) = n := by
  simp only [U32] at h
  simp [readU32LE, u32LE, List.getD]
  omega

theorem drop4_u32LE (n : Nat) (l : List Nat) : (u32LE n ++ l).drop 4 = l := by
  simp [u32LE]

theorem mkClipboardCarrier_parse (ty T : Nat) (d1 : List Nat)
    (hT : T + 4 < U32) :
    readU32LE (mkClipboardCarrier ty T d1) = VD_AGENT_PROTOCOL ∧
    readU32LE ((mkClipboardCarrier ty T d1).drop 4) = VD_AGENT_CLIPBOARD ∧
    readU32LE ((mkClipboardCarrier ty T d1).drop 16) = T + 4 ∧
    (mkClipboardCarrier ty T d1).drop 20 = u32LE ty ++ d1 := by
  simp only [U32] at hT
  refine ⟨?_, ?_, ?_, ?_⟩ <;>
    simp [mkClipboardCarrier, u32LE, readU32LE, List.replicate,
      VD_AGENT_PROTOCOL, VD_AGENT_CLIPBOARD, List.getD] <;>
    omega

/-- Preservation of the clipboard-reassembly invariant by one carrier step:
whenever `agent_process` succeeds, the buffer is non-NULL exactly when
`cbRemain + cbSize` is positive. -/
theorem agent_process_cbIff (a a1 : PSAgentCB) (payload : List Nat)
    (ev : List (Nat × List Nat × Nat))
    (hinv : a.cbBuffer ≠ none ↔ 0 < a.cbRemain + a.cbSize)
    (hrun : agent_process a payload = some (a1, ev)) :
    a1.cbBuffer ≠ none ↔ 0 < a1.cbRemain + a1.cbSize := by
  rw [agent_process] at hrun
  by_cases hrem : a.cbRemain ≠ 0
  · rw [if_pos hrem] at hrun
    set r := (a.cbRemain + U32 - payload.length % U32) % U32 with hr
    by_cases hz : r = 0
    · rw [if_pos (by simpa using hz)] at hrun
      rw [agent_onClipboard] at hrun
      injection hrun with h12
      injection h12 with hA hE
      rw [← hA]
      simp
    · rw [if_neg (by simpa using hz)] at hrun
      injection hrun with h12
      injection h12 with hA hE
      rw [← hA]
      simp only [ne_eq, Option.some_ne_none, not_false_eq_true, true_iff]
      omega
  · rw [if_neg hrem] at hrun
    by_cases hp : readU32LE payload ≠ VD_AGENT_PROTOCOL
    · rw [if_pos hp] at hrun
      exact absurd hrun (by simp)
    · rw [if_neg hp] at hrun
      by_cases hm : readU32LE (payload.drop 4) = VD_AGENT_CLIPBOARD
      · rw [if_pos hm] at hrun
        by_cases hb : a.cbBuffer.isSome
        · rw [if_pos hb] at hrun
          exact absurd hrun (by simp)
        · rw [if_neg hb] at hrun
          set d2 := (if a.cbSelection then (payload.drop 20).drop 4
            else payload.drop 20).drop 4 with hd2
          set r := ((readU32LE (payload.drop 16) + U32 - 4) % U32 + U32 -
            d2.length % U32) % U32 with hr
          by_cases hz : r = 0
          · rw [if_pos (by simpa using hz)] at hrun
            rw [agent_onClipboard] at hrun
            injection hrun with h12
            injection h12 with hA hE
            rw [← hA]
            simp
          · rw [if_neg (by simpa using hz)] at hrun
            injection hrun with h12
            injection h12 with hA hE
            rw [← hA]
            simp only [ne_eq, Option.some_ne_none, not_false_eq_true, true_iff]
            omega
      · rw [if_neg hm] at hrun
        injection hrun with h12
        injection h12 with hA hE
        rw [← hA]
        exact hinv

/-- Reassembly of the continuation carriers: starting with `acc` of `T`
bytes already buffered and chunks that fill the remaining `T - acc` bytes
exactly at the last chunk, processing them fires the data callback exactly
once, with the concatenation of the buffered and arriving bytes and size
`T`, and resets the reassembly state. -/
theorem agent_processAll_cont :
    ∀ (rest : List (List Nat)) (ty0 : Nat) (buf : List Nat) (acc T : Nat),
      T < U32 → acc < T → buf.length = acc →
      buildsTo T acc rest = true →
      agent_processAll ⟨false, ty0, some buf, T - acc, acc⟩ rest =
        some (⟨false, ty0, none, 0, 0⟩, [(ty0, buf ++ rest.flatten, T)]) := by
  intro rest
  induction rest with
  | nil =>
    intro ty0 buf acc T hT hacc hlen hbuild
    simp only [buildsTo, decide_eq_true_eq] at hbuild
    omega
  | cons d rest ih =>
    intro ty0 buf acc T hT hacc hlen hbuild
    simp only [buildsTo, Bool.and_eq_true, Bool.or_eq_true, decide_eq_true_eq,
      List.isEmpty_iff] at hbuild
    obtain ⟨⟨hle, hlast⟩, hrest⟩ := hbuild
    have hdlen : d.length % U32 = d.length := Nat.mod_eq_of_lt (by omega)
    have hrem : (T - acc + U32 - d.length % U32) % U32 = T - (acc + d.length) := by
      rw [hdlen]
      have : T - acc + U32 - d.length = (T - (acc + d.length)) + U32 := by omega
      rw [this, Nat.add_mod_right]
      exact Nat.mod_eq_of_lt (by omega)
    have hsz : (acc + d.length) % U32 = acc + d.length := Nat.mod_eq_of_lt (by omega)
    rw [agent_processAll]
    rw [show agent_process ⟨false, ty0, some buf, T - acc, acc⟩ d =
        (if T - (acc + d.length) = 0 then
          some (agent_onClipboard
            ⟨false, ty0, some (buf ++ d), T - (acc + d.length), acc + d.length⟩)
        else
          some (⟨false, ty0, some (buf ++ d), T - (acc + d.length),
            acc + d.length⟩, [])) from by
      rw [agent_process]
      rw [if_pos (by simp; omega)]
      simp only [Option.getD_some, hrem, hsz]]
    by_cases hz : T - (acc + d.length) = 0
    · have heq : acc + d.length = T := by omega
      have hnil : rest = [] := by
        rcases hlast with hlt | hnil
        · omega
        · exact hnil
      subst hnil
      rw [if_pos hz]
      rw [agent_onClipboard]
      simp [heq, agent_processAll]
    · rw [if_neg hz]
      have hlt : acc + d.length < T := by omega
      have hrec := ih ty0 (buf ++ d) (acc + d.length) T hT hlt
        (by simp [hlen]) hrest
      simp only [agent_processAll]
      rw [hrec]
      simp

/-- C1: a server clipboard transfer declaring `T` payload bytes (excluding
the 4-byte type prefix), delivered as a first `CLIPBOARD` carrier with chunk
`d1` followed by the continuation carriers `rest` that together supply
exactly `T` bytes (reaching `T` only at the last carrier), invokes the
clipboard data callback exactly once, with the chunks concatenated in
arrival order and size exactly `T`; afterwards the buffer is freed and
`cbRemain = cbSize = 0`.  Moreover every successful `agent_process` step
preserves the invariant `cbBuffer ≠ NULL ↔ cbRemain + cbSize > 0`. -/
theorem claim1_clipboard_reassembly (ty0 ty T : Nat) (d1 : List Nat)
    (rest : List (List Nat)) (hT : T + 4 < U32)
    (hbuild : buildsTo T 0 (d1 :: rest) = true) :
    (agent_processAll ⟨false, ty0, none, 0, 0⟩
        (mkClipboardCarrier ty T d1 :: rest) =
      some (⟨false, ty0, none, 0, 0⟩, [(ty0, d1 ++ rest.flatten, T)]) ∧
     (d1 ++ rest.flatten).length = T) ∧
    (∀ (a a1 : PSAgentCB) (payload : List Nat) (ev : List (Nat × List Nat × Nat)),
      (a.cbBuffer ≠ none ↔ 0 < a.cbRemain + a.cbSize) →
      agent_process a payload = some (a1, ev) →
      (a1.cbBuffer ≠ none ↔ 0 < a1.cbRemain + a1.cbSize)) := by
  simp only [buildsTo, Bool.and_eq_true, Bool.or_eq_true, decide_eq_true_eq,
    List.isEmpty_iff, Nat.zero_add] at hbuild
  obtain ⟨⟨hle, hlast⟩, hrest⟩ := hbuild
  obtain ⟨hp, hm, hs, hdata⟩ := mkClipboardCarrier_parse ty T d1 hT
  have hd1len : d1.length % U32 = d1.length := Nat.mod_eq_of_lt (by omega)
  have htot : (readU32LE ((mkClipboardCarrier ty T d1).drop 16) + U32 - 4) %
      U32 = T := by
    rw [hs]
    have : T + 4 + U32 - 4 = T + U32 := by omega
    rw [this, Nat.add_mod_right]
    exact Nat.mod_eq_of_lt (by omega)
  have hrem : (T + U32 - d1.length % U32) % U32 = T - d1.length := by
    rw [hd1len]
    have he : T + U32 - d1.length = (T - d1.length) + U32 := by omega
    rw [he, Nat.add_mod_right]
    exact Nat.mod_eq_of_lt (by omega)
  have hfirst : agent_process ⟨false, ty0, none, 0, 0⟩ (mkClipboardCarrier ty T d1) =
      (if T - d1.length = 0 then
        some (agent_onClipboard ⟨false, ty0, some d1, T - d1.length, d1.length⟩)
      else
        some (⟨false, ty0, some d1, T - d1.length, d1.length⟩, [])) := by
    rw [agent_process]
    simp only [ne_eq, not_true_eq_false, Bool.false_eq_true, if_false,
      hp, not_false_eq_true, if_true, hm, if_pos rfl, hdata, drop4_u32LE,
      Option.isSome_none, htot, hrem]
  refine ⟨⟨?_, ?_⟩, fun a a1 payload ev hinv hrun =>
    agent_process_cbIff a a1 payload ev hinv hrun⟩
  · rw [agent_processAll, hfirst]
    by_cases hz : T - d1.length = 0
    · have heq : d1.length = T := by omega
      have hnil : rest = [] := by
        rcases hlast with hlt | hnil
        · omega
        · exact hnil
      subst hnil
      rw [if_pos hz]
      rw [agent_onClipboard]
      simp [heq, agent_processAll]
    · rw [if_neg hz]
      have hlt : d1.length < T := by omega
      have hrec := agent_processAll_cont rest ty0 d1 d1.length T (by omega)
        hlt rfl hrest
      simp only [agent_processAll]
      rw [hrec]
      simp
  · have hflat : (d1 ++ rest.flatten).length = T := by
      have : ∀ (chunks : List (List Nat)) (acc : Nat), buildsTo T acc chunks = true →
          acc + chunks.flatten.length = T := by
        intro chunks
        induction chunks with
        | nil =>
          intro acc h
          simp only [buildsTo, decide_eq_true_eq] at h
          simpa using h
        | cons c cs ihc =>
          intro acc h
          simp only [buildsTo, Bool.and_eq_true, decide_eq_true_eq] at h
          have := ihc (acc + c.length) h.2
          simp only [List.flatten_cons, List.length_append]
          omega
      have h0 := this rest d1.length hrest
      simp only [List.length_append]
      omega
    exact hflat

theorem claim1_witness :
    ((5 : Nat) + 4 < U32 ∧ buildsTo 5 0 [[1, 2, 3], [4, 5]] = true) ∧
    (agent_processAll ⟨false, 9, none, 0, 0⟩
        (mkClipboardCarrier 1 5 [1, 2, 3] :: [[4, 5]]) =
      some (⟨false, 9, none, 0, 0⟩, [(9, [1, 2, 3] ++ [[4, 5]].flatten, 5)]) ∧
     (([1, 2, 3] : List Nat) ++ [[4, 5]].flatten).length = 5) :=
  ⟨⟨by decide, by decide⟩,
   (claim1_clipboard_reassembly 9 1 5 [1, 2, 3] [[4, 5]] (by decide) (by decide)).1⟩

end PureSpice
